import Mathlib

unseal Rat.mul Rat.add Rat.sub Rat.inv

/-
  Verification development for the ENT applicant-ranking application
  (single source file app.py, a pandas-based pipeline).

  Shallow embedding notes:
  - a pandas DataFrame is a list of named columns; a column is either a
    numeric column (float64/int64, cells are Option Rat, none = NaN) or an
    object column (cells are Option String, none = NaN);
  - pandas floats are modelled as exact rationals; the round(1) half-even
    rounding of numpy is modelled exactly on rationals;
  - pd.to_numeric with coercion is modelled by parseNum, which turns a
    string into a rational when it is a plain decimal literal and into
    none otherwise;
  - st.session_state is modelled by the Session structure; st.stop after
    st.error is modelled by returning Except.error, leaving the session
    unchanged.
-/

namespace App

/-- ASCII lowering of a character, as done by str.lower on column names. -/
def lowChar (c : Char) : Char :=
  if c.toNat ≥ 65 && c.toNat ≤ 90 then Char.ofNat (c.toNat + 32) else c

/-- Test that the first list is an initial segment of the second. -/
def leadMatch : List Char → List Char → Bool
  | [], _ => true
  | _ :: _, [] => false
  | a :: as, b :: bs => a == b && leadMatch as bs

/-- Test that pat occurs contiguously inside the second list (Python in). -/
def occursIn (pat : List Char) : List Char → Bool
  | [] => pat.isEmpty
  | c :: rest => leadMatch pat (c :: rest) || occursIn pat rest

/-- Test that the lowercased string s contains pat (pat given lowercase);
models the idiom pat in str(col).lower() used for column discovery. -/
def strHasLower (s pat : String) : Bool :=
  occursIn pat.data (s.data.map lowChar)

/-- Digits of a decimal literal to a natural number; none on a non-digit. -/
def parseNatDigits (cs : List Char) : Option ℕ :=
  cs.foldl
    (fun acc c =>
      match acc with
      | some n => if c.isDigit then some (n * 10 + (c.toNat - 48)) else none
      | none => none)
    (some 0)

/-- Drop spaces at both ends of a character list. -/
def trimChars (cs : List Char) : List Char :=
  ((cs.dropWhile (fun c => c == ' ')).reverse.dropWhile (fun c => c == ' ')).reverse

/-- Model of pd.to_numeric coercion on one cell: a decimal literal with an
optional sign and an optional fractional part parses to a rational, and
anything else becomes none (NaN); it never raises. -/
def parseNum (s : String) : Option ℚ :=
  let t := trimChars s.data
  let p : ℚ × List Char :=
    match t with
    | '-' :: cs => (-1, cs)
    | '+' :: cs => (1, cs)
    | cs => (1, cs)
  match p.2.splitOn '.' with
  | [ip] =>
      if ip.isEmpty then none
      else (parseNatDigits ip).map (fun n => p.1 * (n : ℚ))
  | [ip, fp] =>
      if ip.isEmpty && fp.isEmpty then none
      else
        match parseNatDigits ip, parseNatDigits fp with
        | some i, some f => some (p.1 * ((i : ℚ) + (f : ℚ) / ((10 : ℚ) ^ fp.length)))
        | _, _ => none
  | _ => none

/-- One DataFrame column: numeric dtype (none = NaN) or object dtype
(none = NaN cell). -/
inductive ColData where
  | num (vals : List (Option ℚ))
  | text (vals : List (Option String))
deriving DecidableEq, Repr

/-- A DataFrame: named columns in order (names unique in a read_csv frame). -/
abbrev Table := List (String × ColData)

/-- Keep the entries of l whose mask entry is true (boolean row filtering). -/
def maskList {α : Type} (m : List Bool) (l : List α) : List α :=
  ((m.zip l).filter (fun p => p.1)).map (fun p => p.2)

/-- Row-filter one column by a boolean mask. -/
def applyMask (m : List Bool) : ColData → ColData
  | ColData.num vals => ColData.num (maskList m vals)
  | ColData.text vals => ColData.text (maskList m vals)

/-- Row-filter every column of a table by the same mask. -/
def filterTable (t : Table) (m : List Bool) : Table :=
  t.map (fun c => (c.1, applyMask m c.2))

/-- The name of a column signals completion status when it contains the
substring complete, case-insensitively. -/
def nameHasComplete (n : String) : Bool := strHasLower n "complete"

/-- First column whose name contains complete (first match wins). -/
def findCompleteCol (t : Table) : Option (String × ColData) :=
  t.find? (fun c => nameHasComplete c.1)

/-- Completion test of one object cell: stringified value contains
complete, case-insensitively; a NaN cell never matches (na=False). -/
def cellHasComplete : Option String → Bool
  | some s => strHasLower s "complete"
  | none => false

/-- Row mask of the completion column: on a numeric column a row is kept
when the value equals 2; on an object column when the stringified value
contains complete case-insensitively. -/
def completeMask : ColData → List Bool
  | ColData.num vals => vals.map (fun v => v == some (2 : ℚ))
  | ColData.text vals => vals.map cellHasComplete

/-- Completion filtering step of ingestion; the boolean is true when no
completion column was found, in which case a warning is shown and all rows
are kept. -/
def filterComplete (t : Table) : Table × Bool :=
  match findCompleteCol t with
  | some c => (filterTable t (completeMask c.2), false)
  | none => (t, true)

/-- First column whose name contains both total and score,
case-insensitively (first match wins). -/
def findTotalCol (t : Table) : Option (String × ColData) :=
  t.find? (fun c => strHasLower c.1 "total" && strHasLower c.1 "score")

/-- Coerce a column to numeric: a numeric column is unchanged, an object
column has each cell parsed (unparseable and NaN cells become none). -/
def toNumeric : ColData → List (Option ℚ)
  | ColData.num vals => vals
  | ColData.text vals => vals.map (fun s => s.bind parseNum)

/-- Assignment df[name] = col: overwrite the column in place when the name
exists, else append it on the right. -/
def setCol (t : Table) (name : String) (cd : ColData) : Table :=
  if t.any (fun c => c.1 == name) then
    t.map (fun c => if c.1 == name then (name, cd) else c)
  else t ++ [(name, cd)]

/-- Rename the first column whose name contains applicant to the canonical
Applicant Name, when it is not already so named. -/
def renameApplicant (t : Table) : Table :=
  match t.find? (fun c => strHasLower c.1 "applicant") with
  | some c =>
      if c.1 ≠ "Applicant Name" then
        t.map (fun d => if d.1 = c.1 then ("Applicant Name", d.2) else d)
      else t
  | none => t

/-- Error message shown when no total-score column exists. -/
def totalErrMsg : String := "Could not find a total_score column. Check your CSV."

/-- The ingestion pipeline: completion filtering, locating the total-score
column (fatal error when absent), adding the coerced total_score column,
and standardizing the applicant column name. -/
def ingest (raw : Table) : Except String Table :=
  let t := (filterComplete raw).1
  match findTotalCol t with
  | none => Except.error totalErrMsg
  | some c => Except.ok (renameApplicant (setCol t "total_score" (ColData.num (toNumeric c.2))))

instance exceptDecEq {α β : Type} [DecidableEq α] [DecidableEq β] : DecidableEq (Except α β) :=
  fun a b =>
    match a, b with
    | Except.ok x, Except.ok y =>
        if h : x = y then isTrue (by rw [h]) else isFalse (by simp [h])
    | Except.error x, Except.error y =>
        if h : x = y then isTrue (by rw [h]) else isFalse (by simp [h])
    | Except.ok _, Except.error _ => isFalse (by simp)
    | Except.error _, Except.ok _ => isFalse (by simp)

/-- Session state: the normalized table, or none while no data is loaded. -/
structure Session where
  df : Option Table
deriving DecidableEq

/-- The session before any upload succeeded. -/
def noData : Session := ⟨none⟩

/-- Upload handling: when no table is loaded yet, run ingestion and commit
the normalized table on success; on a fatal ingestion error the session is
left untouched (st.error then st.stop). -/
def loadSession (s : Session) (raw : Table) : Session :=
  match s.df with
  | some _ => s
  | none =>
      match ingest raw with
      | Except.ok t => ⟨some t⟩
      | Except.error _ => s

/-- The non-null values of a numeric column. -/
def someVals (l : List (Option ℚ)) : List ℚ := l.filterMap id

/-- Mean of the non-null values; none when every value is null (pandas
mean skips NaN and yields NaN on an empty group). -/
def meanOpt (l : List (Option ℚ)) : Option ℚ :=
  match someVals l with
  | [] => none
  | v :: vs => some (((v :: vs).sum) / ((v :: vs).length : ℚ))

/-- Minimum of the non-null values; none when every value is null. -/
def minOpt (l : List (Option ℚ)) : Option ℚ :=
  match someVals l with
  | [] => none
  | v :: vs => some (vs.foldl min v)

/-- Maximum of the non-null values; none when every value is null. -/
def maxOpt (l : List (Option ℚ)) : Option ℚ :=
  match someVals l with
  | [] => none
  | v :: vs => some (vs.foldl max v)

/-- Round to the nearest integer, ties to even (numpy rounding). -/
def roundHalfEven (q : ℚ) : ℤ :=
  let f := q.floor
  let r := q - (f : ℚ)
  if r < 1 / 2 then f
  else if 1 / 2 < r then f + 1
  else if f % 2 = 0 then f else f + 1

/-- Round to one decimal place, ties to even (DataFrame.round(1)). -/
def round1 (q : ℚ) : ℚ := ((roundHalfEven (q * 10) : ℚ)) / 10

/-- One aggregated row before ranking: applicant name, count of non-null
scores (pandas count aggregation), average score. -/
structure RankRow where
  name : String
  n_evals : ℕ
  avg : Option ℚ
deriving DecidableEq, Repr

/-- One row of the final ranking table. -/
structure RankedRow where
  rank : ℕ
  name : String
  avg : Option ℚ
  n_evals : ℕ
deriving DecidableEq, Repr

/-- The scores of the group of applicant k, in row order, from the zipped
name and score columns. -/
def groupScores (pairs : List (String × Option ℚ)) (k : String) : List (Option ℚ) :=
  (pairs.filter (fun p => p.1 == k)).map (fun p => p.2)

/-- Strict lexicographic order on character lists by code point. -/
def strLtChars : List Char → List Char → Bool
  | [], [] => false
  | [], _ :: _ => true
  | _ :: _, [] => false
  | a :: as, b :: bs => a.toNat < b.toNat || (a == b && strLtChars as bs)

/-- Lexicographic order on strings by code point, the order pandas uses
on string group keys. -/
def strLe (a b : String) : Prop := (strLtChars a.data b.data || a == b) = true

instance strLeDecidable : DecidableRel strLe :=
  fun a b => instDecidableEqBool (strLtChars a.data b.data || a == b) true

/-- The distinct applicant names in ascending order: pandas groupby sorts
the group keys. -/
def groupKeys (names : List String) : List String :=
  List.insertionSort strLe names.dedup

/-- The aggregated row of one group: count counts the non-null scores,
avg is the mean of the non-null scores. -/
def aggRow (pairs : List (String × Option ℚ)) (k : String) : RankRow :=
  { name := k, n_evals := ((groupScores pairs k).filterMap id).length,
    avg := meanOpt (groupScores pairs k) }

/-- The groupby-agg step of the ranking pipeline. -/
def aggregate (names : List String) (scores : List (Option ℚ)) : List RankRow :=
  (groupKeys names).map (aggRow (names.zip scores))

/-- The round(1) step: the average is rounded to one decimal, the count is
an integer and is unchanged. -/
def roundStage (rs : List RankRow) : List RankRow :=
  rs.map (fun r => { r with avg := r.avg.map round1 })

/-- Comparison of averages in output order: descending by value, with null
averages placed last (sort_values ascending=False, na_position=last). -/
def avgLe (a b : Option ℚ) : Bool :=
  match a, b with
  | none, none => true
  | none, some _ => false
  | some _, none => true
  | some x, some y => decide (y ≤ x)

/-- The sort relation on aggregated rows. -/
def rowLe (a b : RankRow) : Prop := avgLe a.avg b.avg = true

instance rowLeDecidable : DecidableRel rowLe :=
  fun a b => instDecidableEqBool (avgLe a.avg b.avg) true

instance rowLeIsTotal : IsTotal RankRow rowLe := by
  constructor
  intro a b
  unfold rowLe avgLe
  rcases a.avg with _ | x <;> rcases b.avg with _ | y <;> simp
  exact le_total y x

instance rowLeIsTrans : IsTrans RankRow rowLe := by
  constructor
  intro a b c
  unfold rowLe avgLe
  rcases a.avg with _ | x <;> rcases b.avg with _ | y <;> rcases c.avg with _ | z <;> simp
  exact fun h h' => le_trans h' h

/-- The sort step of the ranking pipeline (descending by average, null
averages last). -/
def sortStage (rs : List RankRow) : List RankRow :=
  List.insertionSort rowLe rs

/-- Prepend ranks k, k+1, ... to the sorted rows positionally. -/
def addRanks : ℕ → List RankRow → List RankedRow
  | _, [] => []
  | k, r :: rs => ⟨k, r.name, r.avg, r.n_evals⟩ :: addRanks (k + 1) rs

/-- The full Aggregator: group by applicant name, aggregate count and
mean, round to one decimal, sort descending by average with null averages
last, and assign ranks 1, 2, ... by sorted position. -/
def ranking (names : List String) (scores : List (Option ℚ)) : List RankedRow :=
  addRanks 1 (sortStage (roundStage (aggregate names scores)))

/-- The FinalOrder update on a reorder event: the session list is replaced
by the incoming sequence whenever it differs, with no further check. -/
def reorder (cur new : List String) : List String :=
  if new ≠ cur then new else cur

/-- Column lookup by name (first column of that name). -/
def getCol (t : Table) (nm : String) : Option ColData :=
  (t.find? (fun c => c.1 == nm)).map (fun c => c.2)

/-- Row mask selecting the rows of one applicant: an object cell matches
when it equals the selected name; a numeric column never matches a string. -/
def applicantMask (cd : ColData) (sel : String) : List Bool :=
  match cd with
  | ColData.num vals => vals.map (fun _ => false)
  | ColData.text vals => vals.map (fun v => v == some sel)

/-- Restriction of the normalized table to the rows of the selected
applicant; none when the Applicant Name column is absent. -/
def applicantDetails (t : Table) (sel : String) : Option Table :=
  (getCol t "Applicant Name").map (fun cd => filterTable t (applicantMask cd sel))

/-- The fixed exclusion set of known metadata column names. -/
def knownNonLikert : List String :=
  ["Record ID", "Repeat Instrument", "Repeat Instance", "Survey Identifier",
   "Survey Timestamp", "total_score", "Complete?", "Applicant Name"]

/-- Detected question columns of a details table: every column whose name
is not in the exclusion set and whose numeric coercion has at least one
non-null value, in column order. -/
def likertQuestions (d : Table) : List String :=
  d.filterMap (fun c =>
    if c.1 ∉ knownNonLikert ∧ (toNumeric c.2).any Option.isSome = true then some c.1
    else none)

/-- Mean, min and max (each rounded to one decimal) of the coerced values
of the named column of the details table. -/
def questionStats (d : Table) (q : String) : Option (Option ℚ × Option ℚ × Option ℚ) :=
  (getCol d q).map (fun cd =>
    ((meanOpt (toNumeric cd)).map round1,
     (minOpt (toNumeric cd)).map round1,
     (maxOpt (toNumeric cd)).map round1))

/-- Python int(): truncation toward zero. -/
def truncZ (q : ℚ) : ℤ := if q < 0 then -((-q).floor) else q.floor

/-- What one detail row displays: mean with an integer min-max range, or
the fallback mean with a dash when min or max is undefined. -/
inductive RowDisplay where
  | withRange (mean : Option ℚ) (mn mx : ℤ)
  | noRange (mean : Option ℚ)
deriving DecidableEq, Repr

/-- The display formatter of one detail row. -/
def formatRow (mean mn mx : Option ℚ) : RowDisplay :=
  match mn, mx with
  | some a, some b => RowDisplay.withRange mean (truncZ a) (truncZ b)
  | _, _ => RowDisplay.noRange mean

/-- The row indices a boolean mask keeps, in ascending order. -/
def keptIdx (m : List Bool) : List ℕ :=
  (List.range m.length).filter (fun i => m.getD i false)

/-- Concrete upload used in witnesses: two evaluations of Alice, one of
them incomplete, with a variantly named total-score column. -/
def exRaw : Table :=
  [("Applicant Name", ColData.text [some "Alice", some "Alice"]),
   ("Completed", ColData.num [some 2, some 1]),
   ("Total Score", ColData.text [some "90", some "80"])]

/-- The normalized table ingestion produces from exRaw: the incomplete row
is dropped, the original Total Score column is kept, and the coerced
total_score column is appended. -/
def exDf : Table :=
  [("Applicant Name", ColData.text [some "Alice"]),
   ("Completed", ColData.num [some 2]),
   ("Total Score", ColData.text [some "90"]),
   ("total_score", ColData.num [some 90])]

/-- A raw upload without any total-score-like column. -/
def exRawNoTotal : Table :=
  [("Applicant Name", ColData.text [some "Alice"]),
   ("Interview Notes", ColData.text [some "strong"])]

/-- A one-column details table with two parseable question values. -/
def exDetailQ : Table := [("Q1", ColData.text [some "4", some "3"])]

theorem find?_decomp {α : Type} {p : α → Bool} {l : List α} {a : α}
    (h : l.find? p = some a) :
    ∃ l1 l2, l = l1 ++ a :: l2 ∧ (∀ x ∈ l1, p x = false) ∧ p a = true := by
  induction l with
  | nil => simp at h
  | cons c cs ih =>
    cases hp : p c with
    | true =>
      rw [List.find?_cons, hp] at h
      obtain rfl : c = a := Option.some.inj h
      exact ⟨[], cs, rfl, by simp, hp⟩
    | false =>
      rw [List.find?_cons, hp] at h
      obtain ⟨l1, l2, heq, hall, hpa⟩ := ih h
      refine ⟨c :: l1, l2, by rw [heq]; rfl, ?_, hpa⟩
      intro x hx
      rcases List.mem_cons.mp hx with rfl | hx'
      · exact hp
      · exact hall x hx'

theorem maskList_cons {α : Type} (b : Bool) (m : List Bool) (x : α) (l : List α) :
    maskList (b :: m) (x :: l) = if b then x :: maskList m l else maskList m l := by
  cases b <;> simp [maskList]

theorem keptIdx_cons (b : Bool) (m : List Bool) :
    keptIdx (b :: m) = if b then 0 :: (keptIdx m).map Nat.succ else (keptIdx m).map Nat.succ := by
  have hco : ((fun i => (b :: m).getD i false) ∘ Nat.succ) = fun i => m.getD i false := by
    funext i; rfl
  unfold keptIdx
  rw [List.length_cons, List.range_succ_eq_map, List.filter_cons, List.filter_map, hco]
  cases b <;> simp

theorem maskList_eq_keptIdx {α : Type} :
    ∀ (m : List Bool) (l : List α), l.length = m.length →
      maskList m l = (keptIdx m).filterMap (fun i => l.get? i) := by
  intro m
  induction m with
  | nil =>
    intro l h
    rw [List.length_nil] at h
    rw [List.eq_nil_of_length_eq_zero h]
    rfl
  | cons b bm ih =>
    intro l h
    cases l with
    | nil => simp at h
    | cons x xs =>
      have hx : ((fun i => (x :: xs).get? i) ∘ Nat.succ) = fun i => xs.get? i := by
        funext i; rfl
      simp only [List.length_cons, Nat.succ.injEq] at h
      rw [maskList_cons, keptIdx_cons]
      cases b
      · simp only [if_neg, Bool.false_eq_true, not_false_iff, ite_false]
        rw [List.filterMap_map, hx, ih xs h]
      · simp only [ite_true]
        rw [List.filterMap_cons, List.filterMap_map, hx, ih xs h]
        rfl

theorem colNames_filterTable (t : Table) (m : List Bool) :
    (filterTable t m).map (fun c => c.1) = t.map (fun c => c.1) := by
  rw [filterTable, List.map_map]
  rfl

theorem colNames_filterComplete (t : Table) :
    ((filterComplete t).1).map (fun c => c.1) = t.map (fun c => c.1) := by
  unfold filterComplete
  cases h : findCompleteCol t with
  | none => rfl
  | some c => simp [colNames_filterTable]

/-- C9: reorder is a no-op on the current FinalOrder, and applying it
twice with the same target sequence equals applying it once. -/
theorem C9_reorder_noop_idempotent (cur new : List String) :
    reorder cur cur = cur ∧ reorder (reorder cur new) new = reorder cur new := by
  constructor
  · simp [reorder]
  · by_cases h : new = cur <;> simp [reorder, h]

/-- C2 (code behavior at the failing input): the FinalOrder update accepts
the non-permutation sequence containing only Bob and replaces the prior
FinalOrder with it instead of rejecting it, contradicting the required
permutation guard. -/
theorem C2_no_permutation_guard :
    reorder ["Alice", "Bob"] ["Bob"] = ["Bob"]
    ∧ ¬ List.Perm ["Bob"] ["Alice", "Bob"]
    ∧ reorder ["Alice", "Bob"] ["Bob"] ≠ ["Alice", "Bob"] := by
  refine ⟨by decide, ?_, by decide⟩
  intro h
  exact absurd h.length_eq (by decide)

/-- C3: when no column name contains both total and score, ingestion fails
with the missing-required-column error and the session keeps its
no-data-loaded state. -/
theorem C3_missing_total_fatal (raw : Table)
    (h : ∀ c ∈ raw, ¬(strHasLower c.1 "total" = true ∧ strHasLower c.1 "score" = true)) :
    ingest raw = Except.error totalErrMsg ∧ loadSession noData raw = noData := by
  have hnone : findTotalCol (filterComplete raw).1 = none := by
    rw [findTotalCol, List.find?_eq_none]
    intro x hx
    have hn : x.1 ∈ raw.map (fun c => c.1) := by
      rw [← colNames_filterComplete raw]
      exact List.mem_map_of_mem _ hx
    obtain ⟨c, hc, hcx⟩ := List.mem_map.mp hn
    intro hb
    rw [Bool.and_eq_true] at hb
    exact h c hc (by rw [hcx]; exact hb)
  have hing : ingest raw = Except.error totalErrMsg := by
    rw [ingest, hnone]
  exact ⟨hing, by rw [loadSession]; simp [noData, hing]⟩

/-- C3 witness: a concrete upload with no total-score-like column is
rejected and the session stays empty. -/
theorem C3_witness :
    ingest exRawNoTotal = Except.error totalErrMsg ∧ loadSession noData exRawNoTotal = noData :=
  C3_missing_total_fatal exRawNoTotal (by decide)

theorem map_rank_addRanks : ∀ (k : ℕ) (l : List RankRow),
    (addRanks k l).map (fun r => r.rank) = List.range' k l.length := by
  intro k l
  induction l generalizing k with
  | nil => rfl
  | cons s ls ih => simp [addRanks, List.range'_succ, ih]

theorem length_sorted_pipeline (names : List String) (scores : List (Option ℚ)) :
    (sortStage (roundStage (aggregate names scores))).length = names.dedup.length := by
  simp [sortStage, roundStage, aggregate, groupKeys, List.length_insertionSort]

/-- C7: the Rank column of the computed ranking is exactly the contiguous
sequence 1, 2, ..., N where N is the number of distinct applicant names in
the normalized (post-filter) table; ties receive consecutive distinct
ranks because ranks are assigned purely by sorted position. -/
theorem C7_rank_column (names : List String) (scores : List (Option ℚ)) :
    (ranking names scores).map (fun r => r.rank) = List.range' 1 names.dedup.length := by
  rw [ranking, map_rank_addRanks, length_sorted_pipeline]

/-- C5: the completion-status column is the first column in order whose
name contains complete case-insensitively; on a numeric column exactly the
rows valued 2 are retained, on an object column exactly the rows whose
stringified value contains complete case-insensitively; with no such
column nothing is filtered and the warning flag is set; the mask keeps
exactly the rows at the mask-true indices, in order. -/
theorem C5_completion_filtering {α : Type} (t : Table) :
    (findCompleteCol t = none → filterComplete t = (t, true))
    ∧ (∀ nm cd, findCompleteCol t = some (nm, cd) →
        (∃ pre post, t = pre ++ (nm, cd) :: post
          ∧ (∀ c ∈ pre, nameHasComplete c.1 = false) ∧ nameHasComplete nm = true)
        ∧ filterComplete t = (filterTable t (completeMask cd), false))
    ∧ (∀ vals, completeMask (ColData.num vals) = vals.map (fun v => v == some (2 : ℚ)))
    ∧ (∀ vals, completeMask (ColData.text vals) = vals.map cellHasComplete)
    ∧ (∀ (m : List Bool) (l : List α), l.length = m.length →
        maskList m l = (keptIdx m).filterMap (fun i => l.get? i)) := by
  refine ⟨?_, ?_, fun vals => rfl, fun vals => rfl, fun m l h => maskList_eq_keptIdx m l h⟩
  · intro h
    rw [filterComplete, h]
  · intro nm cd h
    refine ⟨?_, by rw [filterComplete, h]⟩
    obtain ⟨l1, l2, heq, hall, hp⟩ := find?_decomp h
    exact ⟨l1, l2, heq, hall, hp⟩

/-- C5 witness: on the concrete upload the numeric completion column keeps
exactly the row valued 2. -/
theorem C5_witness :
    filterComplete exRaw = (filterTable exRaw (completeMask (ColData.num [some 2, some 1])), false)
    ∧ maskList [true, false] [some (90 : ℚ), some 80] = [some 90] := by
  constructor
  · exact ((@C5_completion_filtering (Option ℚ) exRaw).2.1 "Completed"
      (ColData.num [some 2, some 1]) (by decide)).2
  · rw [(@C5_completion_filtering (Option ℚ) exRaw).2.2.2.2 [true, false]
      [some 90, some 80] (by decide)]
    decide

theorem mem_likertQuestions (d : Table) (col : String) :
    col ∈ likertQuestions d ↔
      ∃ cd, (col, cd) ∈ d ∧ col ∉ knownNonLikert ∧ (toNumeric cd).any Option.isSome = true := by
  rw [likertQuestions, List.mem_filterMap]
  constructor
  · rintro ⟨c, hc, hsome⟩
    by_cases hP : c.1 ∉ knownNonLikert ∧ (toNumeric c.2).any Option.isSome = true
    · rw [if_pos hP] at hsome
      obtain rfl : c.1 = col := Option.some.inj hsome
      exact ⟨c.2, by simpa using hc, hP.1, hP.2⟩
    · rw [if_neg hP] at hsome
      exact absurd hsome (by simp)
  · rintro ⟨cd, hmem, h1, h2⟩
    exact ⟨(col, cd), hmem, by rw [if_pos ⟨h1, h2⟩]⟩

/-- C4 (amended): the detected question columns of the selected applicant
detail table are exactly the columns not literally named in the fixed
exclusion set that have at least one coercible numeric value in the
restricted rows; row filtering keeps every column, so source columns such
as a total-score column named other than total_score remain eligible. -/
theorem C4_question_columns (t d : Table) (sel col : String)
    (hd : applicantDetails t sel = some d) :
    d.map (fun c => c.1) = t.map (fun c => c.1)
    ∧ (col ∈ likertQuestions d ↔
        ∃ cd, (col, cd) ∈ d ∧ col ∉ knownNonLikert ∧ (toNumeric cd).any Option.isSome = true) := by
  refine ⟨?_, mem_likertQuestions d col⟩
  rw [applicantDetails] at hd
  obtain ⟨cd0, hcd0, hmap⟩ := Option.map_eq_some'.mp hd
  rw [← hmap]
  exact colNames_filterTable t (applicantMask cd0 sel)

/-- C4 counterexample: on a concrete normalized table the source
total-score column (named Total Score) and the source completion column
(named Completed) are both reported as question columns, refuting the
claim that they never are. -/
theorem C4_counterexample :
    (findTotalCol exRaw).map (fun c => c.1) = some "Total Score"
    ∧ (findCompleteCol exRaw).map (fun c => c.1) = some "Completed"
    ∧ ingest exRaw = Except.ok exDf
    ∧ applicantDetails exDf "Alice" = some exDf
    ∧ "Total Score" ∈ likertQuestions exDf
    ∧ "Completed" ∈ likertQuestions exDf := by
  decide

/-- C4 witness: the amended characterization applied at a concrete detail
table, concluding that the Total Score source column is detected. -/
theorem C4_witness : "Total Score" ∈ likertQuestions exDf := by
  have h := C4_question_columns exDf exDf "Alice" "Total Score" (by decide)
  exact h.2.mpr ⟨ColData.text [some "90"], by decide, by decide, by decide⟩

theorem getCol_of_nodup {d : Table} {q : String} {cd : ColData}
    (hnd : (d.map (fun c => c.1)).Nodup) (h : (q, cd) ∈ d) :
    getCol d q = some cd := by
  induction d with
  | nil => simp at h
  | cons c cs ih =>
    rw [List.map_cons, List.nodup_cons] at hnd
    rcases List.mem_cons.mp h with rfl | hmem
    · rw [getCol, List.find?_cons]
      simp
    · have hfalse : (c.1 == q) = false := by
        rw [beq_eq_false_iff_ne]
        intro hceq
        apply hnd.1
        rw [List.mem_map]
        exact ⟨(q, cd), hmem, hceq.symm⟩
      rw [getCol, List.find?_cons, hfalse]
      exact ih hnd.2 hmem

theorem someVals_ne_nil {l : List (Option ℚ)} (h : l.any Option.isSome = true) :
    someVals l ≠ [] := by
  intro hnil
  rw [List.any_eq_true] at h
  obtain ⟨v, hv, hs⟩ := h
  cases v with
  | none => simp at hs
  | some a =>
    have ha : a ∈ someVals l := by
      rw [someVals, List.mem_filterMap]
      exact ⟨some a, hv, rfl⟩
    rw [hnil] at ha
    simp at ha

/-- C10: every detected question column has at least one non-null coerced
value for the applicant, hence its mean, min and max are all defined and
the display formatter always takes the branch showing the mean with an
integer min-max range; the no-range fallback is unreachable for detected
columns. -/
theorem C10_no_range_unreachable (d : Table) (q : String)
    (hnd : (d.map (fun c => c.1)).Nodup) (hq : q ∈ likertQuestions d) :
    ∃ m mn mx : ℚ, questionStats d q = some (some m, some mn, some mx)
      ∧ formatRow (some m) (some mn) (some mx)
          = RowDisplay.withRange (some m) (truncZ mn) (truncZ mx) := by
  obtain ⟨cd, hmem, hnk, hany⟩ := (mem_likertQuestions d q).mp hq
  have hget : getCol d q = some cd := getCol_of_nodup hnd hmem
  have hne := someVals_ne_nil hany
  cases hsv : someVals (toNumeric cd) with
  | nil => exact absurd hsv hne
  | cons v vs =>
    refine ⟨round1 ((v :: vs).sum / ((v :: vs).length : ℚ)),
      round1 (vs.foldl min v), round1 (vs.foldl max v), ?_, rfl⟩
    rw [questionStats, hget, Option.map_some']
    rw [meanOpt, minOpt, maxOpt, hsv]
    rfl

/-- C10 witness: the detected question column of a concrete detail table
shows a defined mean with a min-max range. -/
theorem C10_witness :
    ∃ m mn mx : ℚ, questionStats exDetailQ "Q1" = some (some m, some mn, some mx)
      ∧ formatRow (some m) (some mn) (some mx)
          = RowDisplay.withRange (some m) (truncZ mn) (truncZ mx) :=
  C10_no_range_unreachable exDetailQ "Q1" (by decide) (by decide)

theorem mem_addRanks {r : RankedRow} :
    ∀ {k : ℕ} {l : List RankRow},
      r ∈ addRanks k l ↔ ∃ j, l.get? j = some ⟨r.name, r.n_evals, r.avg⟩ ∧ r.rank = k + j := by
  obtain ⟨rk, nm, av, ne⟩ := r
  intro k l
  induction l generalizing k with
  | nil => simp [addRanks]
  | cons s ls ih =>
    simp only [addRanks, List.mem_cons]
    constructor
    · rintro (heq | hmem)
      · simp only [RankedRow.mk.injEq] at heq
        obtain ⟨h1, h2, h3, h4⟩ := heq
        refine ⟨0, ?_, ?_⟩
        · rw [h2, h3, h4]
          rfl
        · show rk = k + 0
          omega
      · obtain ⟨j, hj, hr⟩ := ih.mp hmem
        have hr2 : rk = k + 1 + j := hr
        refine ⟨j + 1, by simpa using hj, ?_⟩
        show rk = k + (j + 1)
        omega
    · rintro ⟨j, hj, hr⟩
      have hr2 : rk = k + j := hr
      cases j with
      | zero =>
        left
        have hs : s = ⟨nm, ne, av⟩ := Option.some.inj hj
        rw [hs]
        have hk : rk = k := by omega
        rw [hk]
      | succ j =>
        right
        refine ih.mpr ⟨j, by simpa using hj, ?_⟩
        show rk = k + 1 + j
        omega

theorem countP_isSome_eq (l : List (Option ℚ)) :
    l.countP (fun v => v.isSome) = (l.filterMap id).length := by
  induction l with
  | nil => rfl
  | cons v vs ih =>
    cases v <;> simp [List.countP_cons, List.filterMap_cons, ih]

theorem meanOpt_none {l : List (Option ℚ)} (h : ∀ v ∈ l, v = none) : meanOpt l = none := by
  have hsv : someVals l = [] := by
    rw [someVals, List.filterMap_eq_nil_iff]
    intro a ha
    rw [h a ha]
    rfl
  rw [meanOpt, hsv]

/-- C1 counterexample: an applicant with two rows, one of which has an
uncoercible score, gets an evaluation count of 1 although the group has 2
rows, refuting the claim that the count is a row count. -/
theorem C1_counterexample :
    (groupScores ((["Alice", "Alice"]).zip [some (90 : ℚ), none]) "Alice").length = 2
    ∧ (ranking ["Alice", "Alice"] [some (90 : ℚ), none]).map (fun r => r.n_evals) = [1] := by
  decide

/-- C1 (amended): for every row of the computed ranking, the evaluation
count is the number of rows of that applicant whose coerced score is
non-null (pandas count skips nulls), the average is the mean of the
non-null scores rounded to one decimal, and a group with entirely null
scores yields a null average. -/
theorem C1_count_and_average (names : List String) (scores : List (Option ℚ))
    (r : RankedRow) (hr : r ∈ ranking names scores) :
    r.n_evals = (groupScores (names.zip scores) r.name).countP (fun v => v.isSome)
    ∧ r.avg = (meanOpt (groupScores (names.zip scores) r.name)).map round1
    ∧ ((∀ v ∈ groupScores (names.zip scores) r.name, v = none) → r.avg = none) := by
  obtain ⟨rk, nm, av, ne⟩ := r
  obtain ⟨j, hj, hrank⟩ := mem_addRanks.mp hr
  have hmem : (⟨nm, ne, av⟩ : RankRow) ∈ sortStage (roundStage (aggregate names scores)) :=
    List.get?_mem hj
  have hmem2 : (⟨nm, ne, av⟩ : RankRow) ∈ roundStage (aggregate names scores) :=
    (List.perm_insertionSort rowLe (roundStage (aggregate names scores))).mem_iff.mp hmem
  rw [roundStage, List.mem_map] at hmem2
  obtain ⟨s, hs, heq⟩ := hmem2
  rw [aggregate, List.mem_map] at hs
  obtain ⟨key, hkey, rfl⟩ := hs
  rw [aggRow] at heq
  simp only [RankRow.mk.injEq] at heq
  obtain ⟨hkn, hcount, havg⟩ := heq
  subst hkn
  refine ⟨?_, ?_, ?_⟩
  · rw [countP_isSome_eq]
    exact hcount.symm
  · exact havg.symm
  · intro hall
    rw [← havg, meanOpt_none hall]
    rfl

/-- C1 witness: the amended statement evaluated on a concrete table where
one of the two rows of Alice has an uncoercible score. -/
theorem C1_witness :
    (⟨1, "Alice", some 90, 1⟩ : RankedRow).n_evals
      = (groupScores ((["Alice", "Alice"]).zip [some (90 : ℚ), none]) "Alice").countP
          (fun v => v.isSome) := by
  have h := C1_count_and_average ["Alice", "Alice"] [some (90 : ℚ), none]
    ⟨1, "Alice", some 90, 1⟩ (by decide)
  exact h.1

theorem sorted_rel_of_get? {l : List RankRow} (hs : l.Sorted rowLe) {i j : ℕ} {a b : RankRow}
    (hij : i < j) (ha : l.get? i = some a) (hb : l.get? j = some b) : rowLe a b := by
  have hjlen : j < l.length := by
    by_contra hcon
    push_neg at hcon
    rw [List.get?_eq_none.mpr hcon] at hb
    exact Option.noConfusion hb
  have hilen : i < l.length := lt_trans hij hjlen
  have ha2 : a = l.get ⟨i, hilen⟩ := by
    have h := List.get?_eq_get hilen
    rw [ha] at h
    exact Option.some.inj h
  have hb2 : b = l.get ⟨j, hjlen⟩ := by
    have h := List.get?_eq_get hjlen
    rw [hb] at h
    exact Option.some.inj h
  rw [ha2, hb2]
  exact hs.rel_get_of_lt (show (⟨i, hilen⟩ : Fin l.length) < ⟨j, hjlen⟩ from hij)

/-- C6: an applicant all of whose scores are null still appears in the
ranking, with a null average, and is placed after every applicant whose
average is non-null. -/
theorem C6_all_null_applicant (names : List String) (scores : List (Option ℚ)) (k : String)
    (hk : k ∈ names)
    (hnull : ∀ v ∈ groupScores (names.zip scores) k, v = none) :
    ∃ r ∈ ranking names scores, r.name = k ∧ r.avg = none
      ∧ ∀ s ∈ ranking names scores, s.avg.isSome = true → s.rank < r.rank := by
  have hkeys : k ∈ groupKeys names := by
    rw [groupKeys]
    exact (List.perm_insertionSort strLe names.dedup).mem_iff.mpr (List.mem_dedup.mpr hk)
  have havg : meanOpt (groupScores (names.zip scores) k) = none := meanOpt_none hnull
  have hrow : (⟨k, ((groupScores (names.zip scores) k).filterMap id).length, none⟩ : RankRow)
      ∈ roundStage (aggregate names scores) := by
    rw [roundStage, List.mem_map]
    refine ⟨aggRow (names.zip scores) k, ?_, ?_⟩
    · rw [aggregate, List.mem_map]
      exact ⟨k, hkeys, rfl⟩
    · rw [aggRow, havg]
      rfl
  have hsorted : (⟨k, ((groupScores (names.zip scores) k).filterMap id).length, none⟩ : RankRow)
      ∈ sortStage (roundStage (aggregate names scores)) :=
    (List.perm_insertionSort rowLe (roundStage (aggregate names scores))).mem_iff.mpr hrow
  obtain ⟨j, hj⟩ := List.mem_iff_get?.mp hsorted
  refine ⟨⟨1 + j, k, none, ((groupScores (names.zip scores) k).filterMap id).length⟩,
    mem_addRanks.mpr ⟨j, hj, rfl⟩, rfl, rfl, ?_⟩
  intro s hs hsome
  obtain ⟨j2, hj2, hrank2⟩ := mem_addRanks.mp hs
  have hsort : (sortStage (roundStage (aggregate names scores))).Sorted rowLe :=
    List.sorted_insertionSort rowLe (roundStage (aggregate names scores))
  by_contra hlt
  have hlt2 : ¬ s.rank < 1 + j := hlt
  have hge : j ≤ j2 := by omega
  rcases Nat.eq_or_lt_of_le hge with heqj | hjj2
  · subst heqj
    rw [hj] at hj2
    have hrows := Option.some.inj hj2
    have hnone : s.avg = none := (congrArg RankRow.avg hrows).symm
    rw [hnone] at hsome
    exact Bool.noConfusion hsome
  · have hrel := sorted_rel_of_get? hsort hjj2 hj hj2
    rw [rowLe] at hrel
    obtain ⟨a, ha⟩ := Option.isSome_iff_exists.mp hsome
    simp [avgLe, ha] at hrel

/-- C6 witness: on a concrete table where every score of Bob is null, Bob
appears with a null average behind Alice. -/
theorem C6_witness :
    ∃ r ∈ ranking ["Alice", "Bob"] [some (90 : ℚ), none], r.name = "Bob" ∧ r.avg = none
      ∧ ∀ s ∈ ranking ["Alice", "Bob"] [some (90 : ℚ), none],
          s.avg.isSome = true → s.rank < r.rank :=
  C6_all_null_applicant ["Alice", "Bob"] [some (90 : ℚ), none] "Bob" (by decide) (by decide)

end App
